import Mathlib

/-!
Verification development for the spec-list expansion engine of
`lib/spack/spack/spec_list.py`: matrix expansion with exclusion filtering,
token ordering, sigil application, reference expansion and the cached
`SpecList` container.

Machine representation choices: Python strings are Lean `String`s, with the
character-level operations (`startswith`, `in`) modelled on `String.data`;
YAML values that can appear in a spec list are the inductive `Yaml`
(a plain string, a nested list, or a matrix record `{matrix, exclude, sigil}`
with a missing `sigil` key represented as `""`, matching `object.get('sigil', '')`).
The external `Spec` capability (`spack/spec.py`, outside this excerpt) enters
as an abstract satisfaction predicate `sat`, where `sat j x` stands for
`Spec(j).satisfies(x)` after the best-effort
`substitute_abstract_variants` call; Python exceptions (IndexError,
ValueError, TypeError, the reference errors) are modelled with `Option` and
`Except`.
-/

namespace SpackSpecList

/-- YAML value shapes accepted by a spec list: a plain string, a nested list,
or a matrix record.  A matrix record models the Python dict
`{'matrix': rows, 'exclude': excl, 'sigil': sigil}`; an absent `exclude`
key is the empty list and an absent `sigil` key is `""`, matching
`object.get('exclude', [])` and `object.get('sigil', '')`. -/
inductive Yaml where
  | str (s : String)
  | list (items : List Yaml)
  | mat (matrix exclude : List Yaml) (sigil : String)
  deriving Repr

mutual

/-- Boolean equality on `Yaml` values, modelling Python `==` on the
corresponding strings/lists/dicts. -/
def Yaml.beq : Yaml → Yaml → Bool
  | .str a, .str b => a == b
  | .list a, .list b => Yaml.beqList a b
  | .mat a b c, .mat d e f => Yaml.beqList a d && Yaml.beqList b e && c == f
  | _, _ => false

/-- Boolean equality on lists of `Yaml` values. -/
def Yaml.beqList : List Yaml → List Yaml → Bool
  | [], [] => true
  | x :: xs, y :: ys => Yaml.beq x y && Yaml.beqList xs ys
  | _, _ => false

end

/-- Python `s.startswith(pre)`, modelled on the character lists of the strings. -/
def strStartsWith (s pre : String) : Bool :=
  pre.data.isPrefixOf s.data

/-- Python `c in s` for a single character `c`. -/
def strContainsChar (s : String) (c : Char) : Bool :=
  s.data.contains c

/-- Translation of `spec_ordering_key` (spec_list.py lines 13-23). -/
def spec_ordering_key (s : String) : Nat :=
  if strStartsWith s "^" then 5
  else if strStartsWith s "/" then 4
  else if strStartsWith s "%" then 3
  else if "~-+@".data.any (fun c => strStartsWith s (String.mk [c]))
          || strContainsChar s '=' then 2
  else 1

/-- Comparison relation realising Python `sorted(combo, key=spec_ordering_key)`:
tokens compare by their ordering key. -/
def keyLe (a b : String) : Prop :=
  spec_ordering_key a ≤ spec_ordering_key b

instance : DecidableRel keyLe :=
  fun a b => inferInstanceAs (Decidable (spec_ordering_key a ≤ spec_ordering_key b))

instance : IsTotal String keyLe :=
  ⟨fun a b => Nat.le_total (spec_ordering_key a) (spec_ordering_key b)⟩

instance : IsTrans String keyLe :=
  ⟨fun _ _ _ h h₂ => Nat.le_trans h h₂⟩

/-- Python `sorted(combo, key=spec_ordering_key)`: a stable sort by the
ordering key, realised by insertion sort (which is stable). -/
def orderCombo (combo : List String) : List String :=
  List.insertionSort keyLe combo

/-- Python `' '.join(tokens)`. -/
def joinSpaces : List String → String
  | [] => ""
  | [t] => t
  | t :: ts => t ++ " " ++ joinSpaces ts

/-- Python `itertools.product(*rows)`: all tuples taking one entry per row,
first row varying slowest. -/
def listProd : List (List String) → List (List String)
  | [] => [[]]
  | row :: rows => row.flatMap (fun x => (listProd rows).map (fun t => x :: t))

/-- Sigil application step of `_expand_matrix_constraints` (lines 232-233):
`ordered_combo[0] = sigil + ordered_combo[0]` runs only when the sigil is a
non-empty (truthy) string; indexing an empty combo raises IndexError,
modelled as `none`. -/
def sigilCombo (sigil : String) (combo : List String) : Option (List String) :=
  if sigil = "" then some combo
  else
    match combo with
    | [] => none
    | t :: ts => some ((sigil ++ t) :: ts)

/-- Monadic map over `Option`, written out structurally: `none` as soon as
`f` fails, otherwise the list of results in order. -/
def mapOpt (f : α → Option β) : List α → Option (List β)
  | [] => some []
  | x :: xs =>
    match f x with
    | none => none
    | some y => (mapOpt f xs).map (fun ys => y :: ys)

/-- Combination loop of `_expand_matrix_constraints` (lines 213-240): each
product tuple is sorted by `spec_ordering_key`; the tuple is skipped when the
joined, parsed spec satisfies one of the excludes (`sat j x` abstracts
`Spec(j).satisfies(x)` after best-effort variant substitution); the sigil is
prepended to the first token of each surviving combo. -/
def expandCombos (sat : String → Yaml → Bool) (excl : List Yaml) (sigil : String) :
    List (List String) → Option (List (List String))
  | [] => some []
  | combo :: rest =>
    let ordered := orderCombo combo
    if excl.any (fun x => sat (joinSpaces ordered) x) then
      expandCombos sat excl sigil rest
    else
      match sigilCombo sigil ordered with
      | none => none
      | some oc => (expandCombos sat excl sigil rest).map (fun rs => oc :: rs)

mutual

/-- Per-cell body of `_expand_flatten` (lines 182-196): a nested list is
flattened recursively; a matrix-record cell is expanded with `specify=False`
and each of its combinations joined with spaces into one composite token;
a plain string passes through.  (`_expand_flatten([row])` on a single cell
reduces to exactly this cell's contribution.) -/
def expandFlattenCell (sat : String → Yaml → Bool) : Yaml → Option (List String)
  | .str c => some [c]
  | .list l => expandFlattenList sat l
  | .mat rows excl sigil =>
    (expandMatrixConstraints sat rows excl sigil).map (fun rs => rs.map joinSpaces)

/-- Translation of `_expand_flatten` (lines 182-196) over a row: the
concatenation of the per-cell contributions, in order. -/
def expandFlattenList (sat : String → Yaml → Bool) : List Yaml → Option (List String)
  | [] => some []
  | cell :: rest =>
    match expandFlattenCell sat cell with
    | none => none
    | some a => (expandFlattenList sat rest).map (fun b => a ++ b)

/-- Row preprocessing of `_expand_matrix_constraints` (lines 198-208): a list
row is flattened and appended as one row; a matrix-record row is expanded
(`_expand_flatten([row])`, i.e. the single cell's contribution) and every
resulting token becomes its own singleton row; a string row becomes a
one-element row. -/
def expandedRows (sat : String → Yaml → Bool) : List Yaml → Option (List (List String))
  | [] => some []
  | row :: rest =>
    let head : Option (List (List String)) :=
      match row with
      | .list cells => (expandFlattenList sat cells).map (fun r => [r])
      | .mat a b c => (expandFlattenCell sat (.mat a b c)).map (fun f => f.map (fun x => [x]))
      | .str s => some [[s]]
    match head with
    | none => none
    | some h => (expandedRows sat rest).map (fun t => h ++ t)

/-- Translation of `_expand_matrix_constraints` (lines 179-240) on a matrix
record with rows `rows`, excludes `excl` and sigil `sigil`.  The result is the
list of emitted token combos (the `specify` flag only wraps each token in the
external `Spec` constructor and does not change the token strings, so it is
not represented).  `none` models a raised exception (IndexError from the
sigil step of this record or of a nested one). -/
def expandMatrixConstraints (sat : String → Yaml → Bool)
    (rows excl : List Yaml) (sigil : String) : Option (List (List String)) :=
  match expandedRows sat rows with
  | none => none
  | some er => expandCombos sat excl sigil (listProd er)

end

/-- Exceptions of `_expand_references` and `_sigilify`: an unknown `$name`
(UndefinedReferenceError, lines 134-138), the unreachable-else branch of
`_expand_references` (ValueError, lines 166-170), and Python `str + list`
inside `_sigilify` (TypeError). -/
inductive RefErr where
  | undefinedReference
  | valueError
  | typeError
  deriving DecidableEq, Repr

/-- Translation of `_parse_reference` (lines 124-140) after the leading `$`
has been stripped: a leading `^` or `%` becomes the sigil and is removed from
the name.  The membership check against the reference mapping is done by the
caller. -/
def parseRefName (cs : List Char) : String × String :=
  match cs with
  | '^' :: t => (String.mk t, "^")
  | '%' :: t => (String.mk t, "%")
  | t => (String.mk t, "")

/-- Translation of `_sigilify` (lines 243-249): on a dict the `sigil` field is
set when the sigil is non-empty (truthy); on a string the sigil is prepended
(a no-op for the empty sigil).  Python `sigil + item` on a list raises
TypeError, modelled as an error. -/
def sigilifyE (sigil : String) : Yaml → Except RefErr Yaml
  | .mat rows excl s => .ok (.mat rows excl (if sigil = "" then s else sigil))
  | .str s => .ok (.str (sigil ++ s))
  | .list _ => .error .typeError

/-- Monadic map over `Except`, written out structurally. -/
def mapExcept (f : α → Except ε β) : List α → Except ε (List β)
  | [] => .ok []
  | x :: xs =>
    match f x with
    | .error e => .error e
    | .ok y => (mapExcept f xs).map (fun ys => y :: ys)

/-- Reference mapping of a container: it binds a list name to the referenced
container's expanded view, which is the only part of the referenced `SpecList`
that `_expand_references` reads (`self._reference[name].specs_as_yaml_list`,
line 153). -/
abbrev RefMap := List (String × List Yaml)

/-- Name lookup in the reference mapping (Python dict membership/indexing). -/
def lookupRef (ref : RefMap) (nm : String) : Option (List Yaml) :=
  match ref with
  | [] => none
  | (k, v) :: rest => if k = nm then some v else lookupRef rest nm

/-- Translation of `_expand_references` (lines 142-170) over a list.  A string
item starting with `$` is parsed as a reference; the referent's expanded view
is passed through `_sigilify` and spliced in place (extend, not append).
Other strings pass through unchanged; a nested list recurses and stays a
list.  A matrix record takes the dict branch, which recurses into every dict
value: the `matrix` and `exclude` values are lists and recurse as lists,
while a present (non-empty) `sigil` value is a bare string, which falls into
the unreachable-else branch and raises ValueError. -/
def expandRefList (ref : RefMap) : List Yaml → Except RefErr (List Yaml)
  | [] => .ok []
  | .str s :: rest =>
    match s.data with
    | '$' :: cs =>
      match lookupRef ref (parseRefName cs).1 with
      | none => .error .undefinedReference
      | some referent =>
        match mapExcept (sigilifyE (parseRefName cs).2) referent with
        | .error e => .error e
        | .ok items => (expandRefList ref rest).map (fun r => items ++ r)
    | _ => (expandRefList ref rest).map (fun r => .str s :: r)
  | .list l :: rest =>
    match expandRefList ref l with
    | .error e => .error e
    | .ok l2 => (expandRefList ref rest).map (fun r => .list l2 :: r)
  | .mat rows excl sg :: rest =>
    if sg = "" then
      match expandRefList ref rows with
      | .error e => .error e
      | .ok rows2 =>
        match expandRefList ref excl with
        | .error e => .error e
        | .ok excl2 => (expandRefList ref rest).map (fun r => .mat rows2 excl2 "" :: r)
    else .error .valueError

/-- State of a `SpecList` container (lines 26-122): its name, the raw list,
the reference mapping, and the three lazily cached views, with `none` playing
Python's `None` (stale / not yet computed).  The constraints cache holds
token combos and the specs cache one string per folded spec; the external
`Spec` objects are represented by their source strings, which is all the
cache-invalidation claims observe. -/
structure SpecList where
  name : String
  yaml_list : List Yaml
  reference : RefMap
  expanded_list : Option (List Yaml)
  constraints : Option (List (List String))
  specs : Option (List String)

/-- The `specs_as_yaml_list` property (lines 46-50): return the cached
expanded list when it is fresh, otherwise expand references and fill the
cache.  The pair carries the returned view and the container after the
property access. -/
def SpecList.specs_as_yaml_list (sl : SpecList) : Except RefErr (List Yaml × SpecList) :=
  match sl.expanded_list with
  | some l => .ok (l, sl)
  | none =>
    match expandRefList sl.reference sl.yaml_list with
    | .error e => .error e
    | .ok l => .ok (l, { sl with expanded_list := some l })

/-- The `add` operation (lines 80-89): append the string form of the spec to
the raw list, append it to the expanded-list cache when that cache is
populated, and invalidate the constraints and specs caches. -/
def SpecList.add (sl : SpecList) (spec : String) : SpecList :=
  { sl with
    yaml_list := sl.yaml_list ++ [.str spec]
    expanded_list :=
      match sl.expanded_list with
      | some l => some (l ++ [.str spec])
      | none => none
    constraints := none
    specs := none }

/-- Failures of `remove` (lines 96-101): the descriptive SpecListError when
nothing matches, and the `assert len(remove) == 1` AssertionError when more
than one raw entry matches. -/
inductive RemoveErr where
  | specListError
  | assertionError
  deriving DecidableEq, Repr

/-- Matching raw entries of `remove` (lines 93-95): plain strings not
beginning with `$` whose parsed constraint equals the parsed argument.
`eqS a b` abstracts `Spec(a) == Spec(b)` of the external Spec capability. -/
def removeMatches (eqS : String → String → Bool) (sl : SpecList) (spec : String) : List Yaml :=
  sl.yaml_list.filter (fun s =>
    match s with
    | .str t => !strStartsWith t "$" && eqS t spec
    | _ => false)

/-- Python `list.remove`: drop the first element equal to the given value. -/
def eraseFirstYaml : List Yaml → Yaml → List Yaml
  | [], _ => []
  | x :: xs, y => if Yaml.beq x y then xs else x :: eraseFirstYaml xs y

/-- The `remove` operation (lines 91-107): zero matches raise the descriptive
SpecListError before any mutation, more than one match trips the assertion
(also before any mutation), and a unique match is removed from the raw list
with all three caches invalidated. -/
def SpecList.remove (eqS : String → String → Bool) (sl : SpecList) (spec : String) :
    Except RemoveErr SpecList :=
  match removeMatches eqS sl spec with
  | [] => .error .specListError
  | [r] =>
    .ok { name := sl.name
          yaml_list := eraseFirstYaml sl.yaml_list r
          reference := sl.reference
          expanded_list := none
          constraints := none
          specs := none }
  | _ => .error .assertionError

/-- The `extend` operation (lines 109-116): concatenate the other container's
raw list, invalidate all three caches, and adopt the other container's
reference mapping when `copy_reference` is set. -/
def SpecList.extend (sl other : SpecList) (copy_reference : Bool) : SpecList :=
  { name := sl.name
    yaml_list := sl.yaml_list ++ other.yaml_list
    reference := if copy_reference then other.reference else sl.reference
    expanded_list := none
    constraints := none
    specs := none }

/-- The `update_reference` operation (lines 118-122): replace the reference
mapping and invalidate all three caches. -/
def SpecList.update_reference (sl : SpecList) (ref : RefMap) : SpecList :=
  { name := sl.name
    yaml_list := sl.yaml_list
    reference := ref
    expanded_list := none
    constraints := none
    specs := none }

/-- Modelled from the spec: the parsing fragment of the external Spec
capability (`spack/spec.py`, which is not part of this excerpt).  A
constraint string is read as a package name followed by an optional
`@`-version, so `"pkg @1.0"` and `"pkg@1.0"` both denote name `pkg` at
version `1.0` and a bare `"pkg"` carries no version constraint. -/
def parseNameVer (s : String) : List Char × Option (List Char) :=
  let cs := s.data
  let nm := cs.takeWhile (fun c => c ≠ '@' && c ≠ ' ')
  match cs.dropWhile (fun c => c ≠ '@') with
  | [] => (nm, none)
  | _ :: vs => (nm, some (vs.filter (fun c => c ≠ ' ')))

/-- Modelled from the spec: `Spec(j).satisfies(x)` of the external Spec
capability for plain name-and-version constraints — satisfaction holds when
the names agree and the constraint's version, when present, equals the
spec's.  Only string excludes occur in the schema. -/
def satModel (j : String) (x : Yaml) : Bool :=
  match x with
  | .str t =>
    let pj := parseNameVer j
    let pt := parseNameVer t
    pj.1 == pt.1 && (pt.2 == none || pj.2 == pt.2)
  | _ => false

/-!
### Helper lemmas

Facts about the combinators that the claim theorems build on: `mapOpt`,
`listProd`, the combination loop, and stability of the insertion sort that
realises Python's `sorted`.
-/

theorem mapOpt_length {α β : Type} {f : α → Option β} :
    ∀ {l : List α} {r : List β}, mapOpt f l = some r → r.length = l.length := by
  intro l
  induction l with
  | nil =>
    intro r h
    simp [mapOpt] at h
    simp [← h]
  | cons x xs ih =>
    intro r h
    rcases hfx : f x with _ | y <;> simp [mapOpt, hfx] at h
    rcases hm : mapOpt f xs with _ | ys <;> rw [hm] at h <;> simp at h
    rw [← h]
    simp [ih hm]

theorem mapOpt_isSome {α β : Type} {f : α → Option β} :
    ∀ {l : List α}, (∀ x ∈ l, (f x).isSome) → (mapOpt f l).isSome := by
  intro l
  induction l with
  | nil => intro _; simp [mapOpt]
  | cons x xs ih =>
    intro h
    rcases hfx : f x with _ | y
    · have := h x (by simp)
      rw [hfx] at this
      simp at this
    · have hxs := ih (fun z hz => h z (by simp [hz]))
      rcases hm : mapOpt f xs with _ | ys
      · rw [hm] at hxs; simp at hxs
      · simp [mapOpt, hfx, hm]

theorem mapOpt_some_of_total {α β : Type} (g : α → β) :
    ∀ l : List α, mapOpt (fun x => some (g x)) l = some (l.map g) := by
  intro l
  induction l with
  | nil => simp [mapOpt]
  | cons x xs ih => simp [mapOpt, ih]

theorem mapOpt_congr {α β : Type} {f g : α → Option β} :
    ∀ {l : List α}, (∀ x ∈ l, f x = g x) → mapOpt f l = mapOpt g l := by
  intro l
  induction l with
  | nil => intro _; simp [mapOpt]
  | cons x xs ih =>
    intro h
    have hx := h x (by simp)
    have hxs := ih (fun z hz => h z (by simp [hz]))
    simp [mapOpt, hx, hxs]

theorem bind_mapOpt {α β γ : Type} {f : α → Option β} {g : β → Option γ} :
    ∀ l : List α, (mapOpt f l).bind (mapOpt g) = mapOpt (fun x => (f x).bind g) l := by
  intro l
  induction l with
  | nil => simp [mapOpt]
  | cons x xs ih =>
    rcases hfx : f x with _ | y
    · simp [mapOpt, hfx]
    · rcases hm : mapOpt f xs with _ | ys
      · have h2 : mapOpt (fun x => (f x).bind g) xs = none := by
          rw [← ih, hm]
          rfl
        rcases hgy : g y with _ | z <;> simp [mapOpt, hfx, hm, hgy, h2]
      · have h2 : mapOpt g ys = mapOpt (fun x => (f x).bind g) xs := by
          rw [← ih, hm]
          rfl
        rcases hgy : g y with _ | z <;> simp [mapOpt, hfx, hm, hgy, h2]

theorem mapOpt_mem {α β : Type} {f : α → Option β} :
    ∀ {l : List α} {r : List β}, mapOpt f l = some r →
      ∀ y ∈ r, ∃ x ∈ l, f x = some y := by
  intro l
  induction l with
  | nil =>
    intro r h y hy
    simp [mapOpt] at h
    subst h
    simp at hy
  | cons x xs ih =>
    intro r h y hy
    rcases hfx : f x with _ | z <;> simp [mapOpt, hfx] at h
    rcases hm : mapOpt f xs with _ | ys <;> rw [hm] at h <;> simp at h
    rw [← h] at hy
    rcases List.mem_cons.mp hy with hz | hmem
    · exact ⟨x, by simp, by rw [hfx, hz]⟩
    · rcases ih hm y hmem with ⟨w, hw, hfw⟩
      exact ⟨w, by simp [hw], hfw⟩

theorem listProd_length :
    ∀ rows : List (List String), (listProd rows).length = (rows.map List.length).prod := by
  intro rows
  induction rows with
  | nil => simp [listProd]
  | cons row rest ih =>
    have hrow : ∀ r : List String,
        (r.flatMap (fun x => (listProd rest).map (fun t => x :: t))).length =
          r.length * (listProd rest).length := by
      intro r
      induction r with
      | nil => simp
      | cons a t iht => simp [iht, Nat.succ_mul, Nat.add_comm]
    simp [listProd, hrow, ih]

theorem length_of_mem_listProd :
    ∀ {rows : List (List String)} {c : List String},
      c ∈ listProd rows → c.length = rows.length := by
  intro rows
  induction rows with
  | nil =>
    intro c hc
    simp [listProd] at hc
    simp [hc]
  | cons row rest ih =>
    intro c hc
    simp [listProd] at hc
    rcases hc with ⟨x, hx, t, ht, hc⟩
    rw [← hc]
    simp [ih ht]

theorem sorted_orderCombo (c : List String) : (orderCombo c).Sorted keyLe :=
  List.sorted_insertionSort keyLe c

theorem length_orderCombo (c : List String) : (orderCombo c).length = c.length :=
  List.length_insertionSort keyLe c

theorem filter_key_orderedInsert (v : Nat) (a : String) :
    ∀ l : List String,
      (List.orderedInsert keyLe a l).filter (fun x => decide (spec_ordering_key x = v)) =
        if spec_ordering_key a = v then
          a :: l.filter (fun x => decide (spec_ordering_key x = v))
        else l.filter (fun x => decide (spec_ordering_key x = v)) := by
  intro l
  induction l with
  | nil =>
    by_cases hv : spec_ordering_key a = v <;> simp [List.orderedInsert, hv]
  | cons b t ih =>
    by_cases hab : keyLe a b
    · rw [List.orderedInsert_of_le keyLe t hab]
      by_cases hv : spec_ordering_key a = v <;> simp [List.filter_cons, hv]
    · have hba : spec_ordering_key b < spec_ordering_key a :=
        Nat.lt_of_not_le hab
      simp only [List.orderedInsert, if_neg hab]
      by_cases hv : spec_ordering_key a = v
      · have hbv : ¬ spec_ordering_key b = v := by omega
        simp [List.filter_cons, hbv, hv, ih]
      · by_cases hbv : spec_ordering_key b = v <;>
          simp [List.filter_cons, hbv, hv, ih]

theorem filter_key_orderCombo (v : Nat) :
    ∀ c : List String,
      (orderCombo c).filter (fun x => decide (spec_ordering_key x = v)) =
        c.filter (fun x => decide (spec_ordering_key x = v)) := by
  intro c
  induction c with
  | nil => simp [orderCombo, List.insertionSort]
  | cons a t ih =>
    have ih2 : (List.insertionSort keyLe t).filter
        (fun x => decide (spec_ordering_key x = v)) =
        t.filter (fun x => decide (spec_ordering_key x = v)) := ih
    simp only [orderCombo, List.insertionSort]
    rw [filter_key_orderedInsert]
    by_cases hv : spec_ordering_key a = v <;> simp [List.filter_cons, hv, ih2]

theorem expandCombos_eq (sat : String → Yaml → Bool) (excl : List Yaml) (sigil : String) :
    ∀ combos : List (List String),
      expandCombos sat excl sigil combos =
        mapOpt (fun c => sigilCombo sigil (orderCombo c))
          (combos.filter
            (fun c => !(excl.any (fun x => sat (joinSpaces (orderCombo c)) x)))) := by
  intro combos
  induction combos with
  | nil => simp [expandCombos, mapOpt]
  | cons combo rest ih =>
    by_cases hex : excl.any (fun x => sat (joinSpaces (orderCombo combo)) x)
    · simp [expandCombos, hex, List.filter_cons, ih]
    · rcases hs : sigilCombo sigil (orderCombo combo) with _ | oc
      · simp [expandCombos, hex, List.filter_cons, hs, mapOpt]
      · simp [expandCombos, hex, List.filter_cons, hs, mapOpt, ih]

theorem expandMatrixConstraints_eq (sat : String → Yaml → Bool)
    (rows excl : List Yaml) (sigil : String) (er : List (List String))
    (h : expandedRows sat rows = some er) :
    expandMatrixConstraints sat rows excl sigil =
      mapOpt (fun c => sigilCombo sigil (orderCombo c))
        ((listProd er).filter
          (fun c => !(excl.any (fun x => sat (joinSpaces (orderCombo c)) x)))) := by
  rw [expandMatrixConstraints, h]
  exact expandCombos_eq sat excl sigil (listProd er)

theorem strAppendData (a b : String) : (a ++ b).data = a.data ++ b.data := by
  cases a
  cases b
  rfl

theorem strMkData (s : String) : String.mk s.data = s := by
  cases s
  rfl

theorem strEmptyAppend (s : String) : "" ++ s = s := by
  cases s
  rfl

theorem expandFlattenList_cons (sat : String → Yaml → Bool) (cell : Yaml) (rest : List Yaml) :
    expandFlattenList sat (cell :: rest) =
      match expandFlattenCell sat cell with
      | none => none
      | some a => (expandFlattenList sat rest).map (fun b => a ++ b) := by
  rw [expandFlattenList]

theorem expandFlattenList_append (sat : String → Yaml → Bool) :
    ∀ {l1 l2 : List Yaml} {a b : List String},
      expandFlattenList sat l1 = some a → expandFlattenList sat l2 = some b →
      expandFlattenList sat (l1 ++ l2) = some (a ++ b) := by
  intro l1
  induction l1 with
  | nil =>
    intro l2 a b ha hb
    simp [expandFlattenList] at ha
    simp [← ha, hb]
  | cons cell rest ih =>
    intro l2 a b ha hb
    rw [expandFlattenList_cons] at ha
    rcases hc : expandFlattenCell sat cell with _ | c <;> rw [hc] at ha
    · simp at ha
    · rcases hr : expandFlattenList sat rest with _ | r <;> rw [hr] at ha <;> simp at ha
      rw [List.cons_append, expandFlattenList_cons, hc, ih hr hb]
      simp [← ha]

theorem expandFlattenCell_mat (sat : String → Yaml → Bool)
    (rows excl : List Yaml) (sigil : String) :
    expandFlattenCell sat (.mat rows excl sigil) =
      (expandMatrixConstraints sat rows excl sigil).map (fun rs => rs.map joinSpaces) := by
  rw [expandFlattenCell]

/-!
### Claim theorems
-/

/-- C1: a product combination of a matrix record is discarded exactly when
the spec obtained by joining its ordered tokens with spaces and parsing
satisfies at least one parsed exclusion constraint — the emitted list is the
Cartesian product filtered by that test and then sigil-applied — and the
matrix `{matrix: [["pkg"], ["@1.0","@2.0"]], exclude: ["pkg@2.0"]}` yields
exactly the one combo `pkg @1.0`. -/
theorem exclude_iff_joined_satisfies (sat : String → Yaml → Bool)
    (rows excl : List Yaml) (sigil : String) (er : List (List String))
    (h : expandedRows sat rows = some er) :
    expandMatrixConstraints sat rows excl sigil =
      mapOpt (fun c => sigilCombo sigil (orderCombo c))
        ((listProd er).filter
          (fun c => !(excl.any (fun x => sat (joinSpaces (orderCombo c)) x)))) ∧
    expandMatrixConstraints satModel
        [.list [.str "pkg"], .list [.str "@1.0", .str "@2.0"]]
        [.str "pkg@2.0"] "" =
      some [["pkg", "@1.0"]] := by
  constructor
  · exact expandMatrixConstraints_eq sat rows excl sigil er h
  · have her : expandedRows satModel
        [.list [.str "pkg"], .list [.str "@1.0", .str "@2.0"]] =
        some [["pkg"], ["@1.0", "@2.0"]] := by
      simp [expandedRows, expandFlattenList, expandFlattenCell]
    rw [expandMatrixConstraints, her]
    decide

theorem exclude_iff_joined_satisfies_witness :
    expandMatrixConstraints satModel
        [.list [.str "pkg"], .list [.str "@1.0", .str "@2.0"]]
        [.str "pkg@2.0"] "" =
      mapOpt (fun c => sigilCombo "" (orderCombo c))
        ((listProd [["pkg"], ["@1.0", "@2.0"]]).filter
          (fun c => !(([Yaml.str "pkg@2.0"]).any
            (fun x => satModel (joinSpaces (orderCombo c)) x)))) ∧
    expandMatrixConstraints satModel
        [.list [.str "pkg"], .list [.str "@1.0", .str "@2.0"]]
        [.str "pkg@2.0"] "" =
      some [["pkg", "@1.0"]] :=
  exclude_iff_joined_satisfies satModel
    [.list [.str "pkg"], .list [.str "@1.0", .str "@2.0"]]
    [.str "pkg@2.0"] "" [["pkg"], ["@1.0", "@2.0"]]
    (by simp [expandedRows, expandFlattenList, expandFlattenCell])

/-- C3: with an empty exclude list the number of emitted combos equals the
product of the lengths of the flattened, expanded rows. -/
theorem combo_count_empty_exclude (sat : String → Yaml → Bool)
    (rows : List Yaml) (sigil : String) (er res : List (List String))
    (h : expandedRows sat rows = some er)
    (h2 : expandMatrixConstraints sat rows [] sigil = some res) :
    res.length = (er.map List.length).prod := by
  rw [expandMatrixConstraints_eq sat rows [] sigil er h] at h2
  simp only [List.any_nil, Bool.not_false, List.filter_true] at h2
  rw [mapOpt_length h2, listProd_length]

theorem combo_count_empty_exclude_witness :
    ([["a"], ["b"]] : List (List String)).length =
      (([["a", "b"]] : List (List String)).map List.length).prod := by
  refine combo_count_empty_exclude (fun _ _ => false) [.list [.str "a", .str "b"]] "" _ _
    (by simp [expandedRows, expandFlattenList, expandFlattenCell]) ?_
  have her : expandedRows (fun _ _ => false) [.list [.str "a", .str "b"]] =
      some [["a", "b"]] := by
    simp [expandedRows, expandFlattenList, expandFlattenCell]
  rw [expandMatrixConstraints, her]
  decide

/-- C2 fails as stated on records with a non-empty sigil: the record
`{matrix: [["a"], ["b"]], sigil: "^"}` emits the combo `["^a", "b"]`, whose
tokens have ordering keys 5 and 1 and are therefore not ascending. -/
theorem ordered_combo_sigil_counterexample :
    expandMatrixConstraints (fun _ _ => false)
        [.list [.str "a"], .list [.str "b"]] [] "^" =
      some [["^a", "b"]] ∧
    ¬ (["^a", "b"] : List String).Sorted keyLe := by
  constructor
  · have her : expandedRows (fun _ _ => false)
        [.list [.str "a"], .list [.str "b"]] = some [["a"], ["b"]] := by
      simp [expandedRows, expandFlattenList, expandFlattenCell]
    rw [expandMatrixConstraints, her]
    decide
  · intro h
    have h5 : keyLe "^a" "b" := List.rel_of_sorted_cons h "b" (by simp)
    revert h5
    decide

/-- C2 (amended): before the sigil-prepend step — equivalently, for matrix
records with an empty sigil — every emitted combo is sorted ascending by
`spec_ordering_key`, and the sort is stable: each emitted combo is the
stable sort of a Cartesian-product tuple, so at every key value the token
subsequence equals that of the product tuple; the example tokens
`["+shared", "^mpi", "gcc-compiler", "%gcc"]` sort to
`["gcc-compiler", "+shared", "%gcc", "^mpi"]`. -/
theorem ordered_combo_sorted_stable (sat : String → Yaml → Bool)
    (rows excl : List Yaml) (er res : List (List String))
    (h : expandedRows sat rows = some er)
    (h2 : expandMatrixConstraints sat rows excl "" = some res) :
    (∀ c ∈ res, c.Sorted keyLe ∧
      ∃ c₀ ∈ listProd er, c = orderCombo c₀ ∧
        ∀ v : Nat, c.filter (fun x => decide (spec_ordering_key x = v)) =
          c₀.filter (fun x => decide (spec_ordering_key x = v))) ∧
    orderCombo ["+shared", "^mpi", "gcc-compiler", "%gcc"] =
      ["gcc-compiler", "+shared", "%gcc", "^mpi"] := by
  constructor
  · intro c hc
    rw [expandMatrixConstraints_eq sat rows excl "" er h] at h2
    rw [mapOpt_congr (g := fun c => some (orderCombo c))
        (fun x _ => by simp [sigilCombo])] at h2
    rw [mapOpt_some_of_total] at h2
    have hres := Option.some.inj h2
    rw [← hres] at hc
    rcases List.mem_map.mp hc with ⟨c₀, hc₀, hcc⟩
    refine ⟨hcc ▸ sorted_orderCombo c₀, c₀, (List.mem_filter.mp hc₀).1, hcc.symm, ?_⟩
    intro v
    rw [← hcc]
    exact filter_key_orderCombo v c₀
  · decide

theorem ordered_combo_sorted_stable_witness :
    (∀ c ∈ ([["a"]] : List (List String)), c.Sorted keyLe ∧
      ∃ c₀ ∈ listProd [["a"]], c = orderCombo c₀ ∧
        ∀ v : Nat, c.filter (fun x => decide (spec_ordering_key x = v)) =
          c₀.filter (fun x => decide (spec_ordering_key x = v))) ∧
    orderCombo ["+shared", "^mpi", "gcc-compiler", "%gcc"] =
      ["gcc-compiler", "+shared", "%gcc", "^mpi"] := by
  refine ordered_combo_sorted_stable (fun _ _ => false) [.list [.str "a"]] [] [["a"]] _
    (by simp [expandedRows, expandFlattenList, expandFlattenCell]) ?_
  have her : expandedRows (fun _ _ => false) [.list [.str "a"]] = some [["a"]] := by
    simp [expandedRows, expandFlattenList, expandFlattenCell]
  rw [expandMatrixConstraints, her]
  decide

/-- C5: with a non-empty sigil the emitted combos are exactly those of the
same record with the sigil removed, each with the sigil prepended to its
first (lowest-order) token and to no other token; combos discarded by the
exclusion filter are absent either way and never receive the sigil. -/
theorem sigil_first_token (sat : String → Yaml → Bool)
    (rows excl : List Yaml) (sigil : String) (h : sigil ≠ "") :
    expandMatrixConstraints sat rows excl sigil =
      (expandMatrixConstraints sat rows excl "").bind
        (mapOpt (fun c =>
          match c with
          | [] => none
          | t :: ts => some ((sigil ++ t) :: ts))) := by
  rcases her : expandedRows sat rows with _ | er
  · simp only [expandMatrixConstraints, her]
    rfl
  · rw [expandMatrixConstraints_eq sat rows excl sigil er her,
      expandMatrixConstraints_eq sat rows excl "" er her, bind_mapOpt]
    apply mapOpt_congr
    intro c _
    rcases horder : orderCombo c with _ | ⟨t, ts⟩ <;> simp [sigilCombo, h, horder]

theorem sigil_first_token_witness :
    expandMatrixConstraints (fun _ _ => false) [.list [.str "a"]] [] "^" =
      (expandMatrixConstraints (fun _ _ => false) [.list [.str "a"]] [] "").bind
        (mapOpt (fun c =>
          match c with
          | [] => none
          | t :: ts => some (("^" ++ t) :: ts))) :=
  sigil_first_token (fun _ _ => false) [.list [.str "a"]] [] "^" (by decide)

/-- C4: a sub-matrix cell inside a row contributes one composite string token
per expanded combination — the combination's ordered tokens joined with
single spaces — spliced between the sibling cells' contributions before the
outer Cartesian product and sort ever see them, so its internal tokens are
carried as one atomic token. -/
theorem submatrix_composite_tokens (sat : String → Yaml → Bool)
    (pre post rows excl : List Yaml) (sigil : String)
    (sub : List (List String)) (a b : List String)
    (h : expandMatrixConstraints sat rows excl sigil = some sub)
    (ha : expandFlattenList sat pre = some a)
    (hb : expandFlattenList sat post = some b) :
    expandFlattenList sat (pre ++ .mat rows excl sigil :: post) =
      some (a ++ (sub.map joinSpaces ++ b)) := by
  have hcell : expandFlattenList sat (.mat rows excl sigil :: post) =
      some (sub.map joinSpaces ++ b) := by
    rw [expandFlattenList_cons, expandFlattenCell_mat, h, hb]
    rfl
  exact expandFlattenList_append sat ha hcell

theorem submatrix_composite_tokens_witness :
    expandFlattenList (fun _ _ => false)
        ([.str "p"] ++ .mat [.list [.str "s"]] [] "" :: []) =
      some (["p"] ++ (([["s"]] : List (List String)).map joinSpaces ++ [])) := by
  refine submatrix_composite_tokens (fun _ _ => false) [.str "p"] [] [.list [.str "s"]] [] ""
    [["s"]] ["p"] [] ?_ ?_ ?_
  · have her : expandedRows (fun _ _ => false) [.list [.str "s"]] = some [["s"]] := by
      simp [expandedRows, expandFlattenList, expandFlattenCell]
    rw [expandMatrixConstraints, her]
    decide
  · simp [expandFlattenList, expandFlattenCell]
  · simp [expandFlattenList]

/-- C10 fails as stated: the record
`{matrix: [{matrix: [[]]}], sigil: "^"}` has a non-empty `matrix` list, yet
its inner record expands to zero tokens, the outer expanded-rows list is
empty, the empty Cartesian product produces the single empty combo, and the
sigil-prepend step's index is out of bounds — expansion fails. -/
theorem sigil_index_counterexample :
    ([Yaml.mat [Yaml.list []] [] ""] ≠ ([] : List Yaml)) ∧
    expandMatrixConstraints (fun _ _ => false)
      [Yaml.mat [Yaml.list []] [] ""] [] "^" = none := by
  constructor
  · simp
  · have her : expandedRows (fun _ _ => false) [Yaml.mat [Yaml.list []] [] ""] =
        some [] := by
      simp [expandedRows, expandFlattenCell, expandFlattenList, expandMatrixConstraints,
        listProd, expandCombos]
    rw [expandMatrixConstraints, her]
    decide

/-- C10 (amended): the sigil-prepend index is in bounds whenever the
expanded-rows list is non-empty (every product tuple then has at least one
token), so expansion returns a result; when the expanded rows are empty —
in particular for an empty `matrix` list — the empty Cartesian product
produces a single empty combo, and if it survives exclusion a non-empty
sigil makes the index out of bounds and expansion fails. -/
theorem sigil_index_bounds (sat : String → Yaml → Bool)
    (rows excl : List Yaml) (sigil : String) (er : List (List String))
    (h : expandedRows sat rows = some er) (hne : er ≠ []) :
    (expandMatrixConstraints sat rows excl sigil).isSome ∧
    (∀ (ex : List Yaml) (sg : String), sg ≠ "" →
      ex.any (fun x => sat (joinSpaces []) x) = false →
      expandMatrixConstraints sat [] ex sg = none) := by
  constructor
  · rw [expandMatrixConstraints_eq sat rows excl sigil er h]
    apply mapOpt_isSome
    intro c hc
    have hm := (List.mem_filter.mp hc).1
    have hlen : c.length = er.length := length_of_mem_listProd hm
    have hpos : 0 < (orderCombo c).length := by
      rw [length_orderCombo, hlen]
      exact List.length_pos.mpr hne
    rcases horder : orderCombo c with _ | ⟨t, ts⟩
    · rw [horder] at hpos
      simp at hpos
    · by_cases hs : sigil = "" <;> simp [sigilCombo, hs]
  · intro ex sg hsg hex
    have her0 : expandedRows sat ([] : List Yaml) = some [] := by
      simp [expandedRows]
    rw [expandMatrixConstraints_eq sat [] ex sg [] her0]
    have hord : orderCombo ([] : List String) = [] := rfl
    simp [listProd, List.filter_cons, hord, hex, mapOpt, sigilCombo, hsg]

theorem sigil_index_bounds_witness :
    (expandMatrixConstraints (fun _ _ => false) [.list [.str "a"]] [] "^").isSome ∧
    (∀ (ex : List Yaml) (sg : String), sg ≠ "" →
      ex.any (fun x => (fun _ _ => false) (joinSpaces []) x) = false →
      expandMatrixConstraints (fun _ _ => false) [] ex sg = none) :=
  sigil_index_bounds (fun _ _ => false) [.list [.str "a"]] [] "^" [["a"]]
    (by simp [expandedRows, expandFlattenList, expandFlattenCell]) (by simp)

/-- C6: a `$B` entry splices the referenced container's expanded strings into
the expanded view in place, unchanged; a `$^B` entry splices them with `^`
prepended to each string element; and `_sigilify` stores a non-empty sigil in
the `sigil` field of a mapping element, overwriting any prior value. -/
theorem reference_splice (ref : RefMap) (n x y : String) (rest rr : List Yaml)
    (hn : parseRefName n.data = (n, ""))
    (hl : lookupRef ref n = some [.str x, .str y])
    (hr : expandRefList ref rest = .ok rr) :
    expandRefList ref (.str ("$" ++ n) :: rest) = .ok (.str x :: .str y :: rr) ∧
    expandRefList ref (.str ("$^" ++ n) :: rest) =
      .ok (.str ("^" ++ x) :: .str ("^" ++ y) :: rr) ∧
    (∀ (rows excl : List Yaml) (s0 sg : String), sg ≠ "" →
      sigilifyE sg (.mat rows excl s0) = .ok (.mat rows excl sg)) := by
  refine ⟨?_, ?_, ?_⟩
  · have hd : ("$" ++ n).data = '$' :: n.data := by
      rw [strAppendData]
      rfl
    rw [expandRefList, hd]
    simp only [hn, hl, hr]
    simp only [mapExcept, sigilifyE, strEmptyAppend]
    rfl
  · have hd : ("$^" ++ n).data = '$' :: '^' :: n.data := by
      rw [strAppendData]
      rfl
    rw [expandRefList, hd]
    simp only [parseRefName, strMkData, hl, hr]
    simp only [mapExcept, sigilifyE]
    rfl
  · intro rows excl s0 sg hsg
    simp [sigilifyE, hsg]

theorem reference_splice_witness :
    expandRefList [("deps", [.str "x", .str "y"])] [.str "$deps"] =
      .ok [.str "x", .str "y"] ∧
    expandRefList [("deps", [.str "x", .str "y"])] [.str "$^deps"] =
      .ok [.str "^x", .str "^y"] ∧
    (∀ (rows excl : List Yaml) (s0 sg : String), sg ≠ "" →
      sigilifyE sg (.mat rows excl s0) = .ok (.mat rows excl sg)) := by
  have h := reference_splice [("deps", [.str "x", .str "y"])] "deps" "x" "y" [] []
    rfl rfl (by rw [expandRefList])
  have e1 : "$" ++ "deps" = "$deps" := by decide
  have e2 : "$^" ++ "deps" = "$^deps" := by decide
  have e3 : "^" ++ "x" = "^x" := by decide
  have e4 : "^" ++ "y" = "^y" := by decide
  rw [e1, e2, e3, e4] at h
  exact h

/-- Sample container used by the concrete witnesses: raw list `["a"]`, empty
reference mapping, and all three caches populated. -/
def sampleList : SpecList :=
  { name := "specs"
    yaml_list := [.str "a"]
    reference := []
    expanded_list := some [.str "a"]
    constraints := some [["a"]]
    specs := some ["a"] }

/-- C7: every container mutation sets the constraints and specs caches stale;
`add` appends the string to a populated expanded-list cache instead of
invalidating it, while `remove` (when it succeeds), `extend` and
`update_reference` set the expanded-list cache stale as well. -/
theorem mutation_cache_invalidation :
    (∀ (sl : SpecList) (spec : String),
      (sl.add spec).constraints = none ∧ (sl.add spec).specs = none ∧
      (∀ l, sl.expanded_list = some l →
        (sl.add spec).expanded_list = some (l ++ [.str spec]))) ∧
    (∀ (eqS : String → String → Bool) (sl sl2 : SpecList) (spec : String),
      sl.remove eqS spec = .ok sl2 →
      sl2.expanded_list = none ∧ sl2.constraints = none ∧ sl2.specs = none) ∧
    (∀ (sl other : SpecList) (c : Bool),
      (sl.extend other c).expanded_list = none ∧
      (sl.extend other c).constraints = none ∧ (sl.extend other c).specs = none) ∧
    (∀ (sl : SpecList) (ref : RefMap),
      (sl.update_reference ref).expanded_list = none ∧
      (sl.update_reference ref).constraints = none ∧
      (sl.update_reference ref).specs = none) := by
  refine ⟨?_, ?_, ?_, ?_⟩
  · intro sl spec
    refine ⟨rfl, rfl, ?_⟩
    intro l hl
    simp [SpecList.add, hl]
  · intro eqS sl sl2 spec h
    unfold SpecList.remove at h
    rcases hm : removeMatches eqS sl spec with _ | ⟨r, rest⟩ <;> rw [hm] at h
    · simp at h
    · rcases rest with _ | ⟨r2, rest2⟩
      · simp only [Except.ok.injEq] at h
        rw [← h]
        exact ⟨rfl, rfl, rfl⟩
      · simp at h
  · intro sl other c
    exact ⟨rfl, rfl, rfl⟩
  · intro sl ref
    exact ⟨rfl, rfl, rfl⟩

theorem mutation_cache_invalidation_witness :
    (sampleList.add "b").constraints = none ∧
    (sampleList.add "b").expanded_list = some ([.str "a"] ++ [.str "b"]) :=
  ⟨(mutation_cache_invalidation.1 sampleList "b").1,
    (mutation_cache_invalidation.1 sampleList "b").2.2 [.str "a"] rfl⟩

/-- C8: `remove` matches exactly the raw entries that are plain strings not
beginning with `$` and equal, as parsed constraints, to the argument; with
zero matches it raises the descriptive SpecListError before any mutation,
with more than one it fails through the assertion, and with a unique match
it removes that entry and invalidates all three caches. -/
theorem remove_match_behavior (eqS : String → String → Bool) (sl : SpecList) (spec : String) :
    (removeMatches eqS sl spec = [] → sl.remove eqS spec = .error .specListError) ∧
    (∀ r, removeMatches eqS sl spec = [r] →
      sl.remove eqS spec = .ok
        { name := sl.name
          yaml_list := eraseFirstYaml sl.yaml_list r
          reference := sl.reference
          expanded_list := none
          constraints := none
          specs := none }) ∧
    (2 ≤ (removeMatches eqS sl spec).length → sl.remove eqS spec = .error .assertionError) := by
  refine ⟨?_, ?_, ?_⟩
  · intro h
    unfold SpecList.remove
    rw [h]
  · intro r h
    unfold SpecList.remove
    rw [h]
  · intro h
    unfold SpecList.remove
    rcases hm : removeMatches eqS sl spec with _ | ⟨r, rest⟩ <;> rw [hm] at h
    · simp at h
    · rcases rest with _ | ⟨r2, rest2⟩
      · simp at h
      · rfl

theorem remove_match_behavior_witness :
    sampleList.remove (fun a b => a == b) "a" = .ok
      { name := "specs"
        yaml_list := eraseFirstYaml [.str "a"] (.str "a")
        reference := []
        expanded_list := none
        constraints := none
        specs := none } :=
  (remove_match_behavior (fun a b => a == b) sampleList "a").2.1 (.str "a") rfl

/-- C9: when the expanded-list cache is populated, `add` of a string that
begins with `$` appends the raw, unexpanded reference token to the cached
view without invalidating it, so the next `specs_as_yaml_list` read returns
the unresolved `$name` token instead of resolving it against the reference
mapping. -/
theorem add_reference_left_unexpanded (sl : SpecList) (s : String) (l : List Yaml)
    (hc : sl.expanded_list = some l) (hs : strStartsWith s "$" = true) :
    (sl.add s).expanded_list = some (l ++ [.str s]) ∧
    (sl.add s).specs_as_yaml_list = .ok (l ++ [.str s], sl.add s) := by
  have h1 : (sl.add s).expanded_list = some (l ++ [.str s]) := by
    simp [SpecList.add, hc]
  refine ⟨h1, ?_⟩
  unfold SpecList.specs_as_yaml_list
  rw [h1]

theorem add_reference_left_unexpanded_witness :
    (sampleList.add "$foo").expanded_list = some ([.str "a"] ++ [.str "$foo"]) ∧
    (sampleList.add "$foo").specs_as_yaml_list =
      .ok ([.str "a"] ++ [.str "$foo"], sampleList.add "$foo") :=
  add_reference_left_unexpanded sampleList "$foo" [.str "a"] rfl (by decide)

end SpackSpecList
